import Mathlib

set_option exponentiation.threshold 10000
set_option maxRecDepth 20000
set_option maxHeartbeats 4000000

/-!
# Verification of a toy Eisel-Lemire decimal float parser

Shallow embedding of the parser in `src/elparse.rs` and the lookup-table
generator in `build.rs`.

Conventions of the embedding:
- Rust `&str` / `Chars` iterators become `List Char`; each lexer stage returns
  the parsed value together with the remaining character list.
- `u64` values are `Nat` with explicit `% 2^64` where the source can wrap
  (release-profile wrapping semantics for the unchecked `*=`, `+=` and `+`);
  `i16`/`i64` values are `Int`, with `wrapI16` for the unchecked `i16`
  additions and with explicit range checks for `checked_mul`, `checked_add`
  and `try_into`/`try_from` conversions.
- `f64` values are represented by their IEEE-754 bit patterns as `Nat`; the
  only float the source ever constructs on the fast path is the literal `0.0`
  (bit pattern `0`).
- Fallible code returns `Option`; a reachable `unimplemented!()` or a failed
  `assert!`/`unwrap` is modelled explicitly (outcome `panic`, resp. `none`
  for the build-time generator whose assertion failures abort generation).
- The arbitrary-precision `BigUint` arithmetic of `build.rs` is `Nat`
  arithmetic; the bit-normalization `while` loop is embedded with an explicit
  fuel argument (4096, far above the at most 3079 significant bits that can
  occur), and a lemma shows the fuel never runs out.
-/

namespace EL

/-- Bisection kernel for `bitsOf`: the least `k` in `[lo, hi]` with `n < 2^k`
(given that such a `k` exists and the fuel covers `log2 (hi - lo)` steps). -/
def bitsSearch : Nat → Nat → Nat → Nat → Nat
  | 0, lo, _hi, _n => lo
  | fuel + 1, lo, hi, n =>
    if hi ≤ lo then lo
    else
      let mid := (lo + hi) / 2
      if n < 2 ^ mid then bitsSearch fuel lo mid n else bitsSearch fuel (mid + 1) hi n

/-- Number of significant bits of a natural number; embeds `BigUint::bits()`
from the `num_bigint` crate (`bits(0) = 0`, otherwise `floor(log2 n) + 1`),
computed by bisection so that it evaluates in logarithmically many steps.
Exact for every `n < 2^4224`, which covers all values arising here (the
generator works with at most `2048 + ceil(310 * log2 10) = 3078` bits). -/
def bitsOf (n : Nat) : Nat := bitsSearch 16 0 4224 n

/-- Wrap an integer into the `i16` range, the release-profile semantics of an
unchecked `i16` addition or subtraction in Rust. -/
def wrapI16 (x : Int) : Int := (x + 32768) % 65536 - 32768

/-- The Rust range pattern `'0'..='9'` (equivalently, success of
`char::to_digit(10)`): code points 48 through 57. -/
def isDig (c : Char) : Bool := 48 ≤ c.toNat && c.toNat ≤ 57

/-- Embeds `char::to_digit(10)`: the value of an ASCII decimal digit. -/
def toDigit10 (c : Char) : Option Nat :=
  if isDig c then some (c.toNat - 48) else none

/-- Embeds `e10 as u64`: two-complement reinterpretation of an `i16`/`i32`
value as an unsigned 64-bit integer. -/
def toU64 (i : Int) : Nat := (i % (2 ^ 64)).toNat

/-! ## Lookup table generator (`build.rs`) -/

/-- `LUTEntry` from `build.rs`: the two 64-bit halves of the normalized
128-bit significand of `10^e10` and the biased binary exponent. -/
structure LUTEntry where
  m128_hi : Nat
  m128_lo : Nat
  widebiased_e2 : Int
deriving DecidableEq

/-- `const N: i32 = 2048` from `build.rs` (working precision in bits). -/
def N : Nat := 2048

/-- `const BIAS: i32 = 1214` from `build.rs` (`1023 + 191`). -/
def BIAS : Int := 1214

/-- The normalization `while &z >= two128 { z >>= 1; e2 += 1 }` loop of
`gen_lut_entry`, with an explicit fuel argument; `none` means the fuel was
exhausted with the loop still running (shown impossible for the inputs the
generator produces). -/
def normLoop (two128 : Nat) : Nat → Nat → Int → Option (Nat × Int)
  | 0, z, e2 => if two128 ≤ z then none else some (z, e2)
  | fuel + 1, z, e2 =>
    if two128 ≤ z then normLoop two128 fuel (z >>> 1) (e2 + 1) else some (z, e2)

/-- The `approx_n` self-check value of `gen_lut_entry`:
`((Wrapping(217706u64) * Wrapping(e10 as u64)).0 >> 16) + 1087`, finally cast
`as u32`.  All operations use wrapping 64-bit arithmetic. -/
def approx_n (e10 : Int) : Nat :=
  ((((217706 * toU64 e10) % (2 ^ 64)) >>> 16 + 1087) % (2 ^ 64)) % (2 ^ 32)

/-- Embeds `gen_lut_entry` from `build.rs`.  Every `assert!` (and the
`try_into().unwrap()` on the biased exponent, and exhaustion of the loop
fuel) is modelled as `none`, i.e. an aborted table generation. -/
def gen_lut_entry (e10 : Int) : Option LUTEntry :=
  if e10 < -310 ∨ 310 < e10 then none
  else
    let z0 : Nat := 1 <<< N
    let z1 : Nat := if 0 ≤ e10 then z0 * 10 ^ e10.toNat else z0 / 10 ^ (-e10).toNat
    if e10 < 0 ∧ 10 ^ (-e10).toNat = 0 then none
    else
      match normLoop (1 <<< 128) 4096 z1 (-(N : Int)) with
      | Option.none => none
      | Option.some (z, e2) =>
        if bitsOf z ≠ 128 then none
        else if e2 + BIAS < 0 then none
        else if approx_n e10 ≠ (e2 + BIAS).toNat then none
        else some ⟨z >>> 64, z % (2 ^ 64), e2 + BIAS⟩

/-- Loop-free closed form of `gen_lut_entry`, used to evaluate the generator
efficiently; `gen_lut_entry_eq_closed` proves it equal to the embedding. -/
def gen_lut_entry_closed (e10 : Int) : Option LUTEntry :=
  if e10 < -310 ∨ 310 < e10 then none
  else
    let z1 : Nat :=
      if 0 ≤ e10 then (1 <<< N) * 10 ^ e10.toNat else (1 <<< N) / 10 ^ (-e10).toNat
    let s : Nat := bitsOf z1 - 128
    let z : Nat := z1 >>> s
    let e2 : Int := -(N : Int) + s
    if bitsOf z ≠ 128 then none
    else if e2 + BIAS < 0 then none
    else if approx_n e10 ≠ (e2 + BIAS).toNat then none
    else some ⟨z >>> 64, z % (2 ^ 64), e2 + BIAS⟩

/-- Specification-side value: the exact integer `floor(2^2048 * 10^e10)`
(truncating division toward zero for negative exponents). -/
def z10 (e10 : Int) : Nat :=
  if 0 ≤ e10 then 2 ^ 2048 * 10 ^ e10.toNat else 2 ^ 2048 / 10 ^ (-e10).toNat

/-- Specification-side value: a natural number truncated to its top 128
significant bits. -/
def truncTop128 (z : Nat) : Nat := z >>> (bitsOf z - 128)

/-! ## Lookup-table access (the `lookups` module)

The runtime `lookups` module (the generated static table plus its accessor
functions) is not part of the given sources; only `build.rs`, which produces
the table, is.  The accessors are therefore modelled from the specification
and backed by the generator embedding. -/

/-- Modelled from the spec: the missing `lookups` module records the minimum
exponent of the generated table; `build.rs` generates the table for
`min_exponent = -307`. -/
def lut_e10_min : Int := -307

/-- Modelled from the spec: the missing `lookups` module records the maximum
exponent of the generated table; `build.rs` generates the table for
`max_exponent = 288`. -/
def lut_e10_max : Int := 288

/-- Modelled from the spec: `get_m64` of the missing `lookups` module.  Per
the lookup contract, given `e10` return `None` outside `[min_exp, max_exp]`,
else the stored (high 64 bits of the) significand for `10^e10`. -/
def get_m64 (e10 : Int) : Option Nat :=
  if lut_e10_min ≤ e10 ∧ e10 ≤ lut_e10_max then
    (gen_lut_entry e10).map (fun e => e.m128_hi)
  else none

/-- Modelled from the spec: `get_narrowbiased_e2` of the missing `lookups`
module.  Per the lookup contract, given `e10` return `None` outside
`[min_exp, max_exp]`, else the stored biased binary exponent for `10^e10`. -/
def get_narrowbiased_e2 (e10 : Int) : Option Int :=
  if lut_e10_min ≤ e10 ∧ e10 ≤ lut_e10_max then
    (gen_lut_entry e10).map (fun e => e.widebiased_e2)
  else none

/-! ## Decimal literal lexer (`elparse.rs`, module `parse_parts`) -/

/-- `ManExp10` from `elparse.rs`: sign, integer mantissa (`u64`) and decimal
exponent (`i16`); represents `(neg ? -1 : 1) * man * 10^e10`. -/
structure ManExp10 where
  neg : Bool
  man : Nat
  e10 : Int
deriving DecidableEq

/-- Embeds `parse_leading_sign`: peeks the first character; consumes it when
it is a sign, fails (`None`) only on empty input. -/
def parse_leading_sign : List Char → Option (Bool × List Char)
  | [] => none
  | c :: rest =>
    if c = '+' ∨ c = '-' then some (c = '-', rest) else some (false, c :: rest)

/-- The character-consuming loop of `parse_mantissa_base10`.  State: input
left, `decimal_seen`, `digits`, `digits_pre_decimal`, `mantissa` (a `u64`,
wrapping).  Returns mantissa, implicit exponent `digits_pre_decimal - digits`,
whether an exponent marker was consumed, and the remaining input. -/
def pmLoop : List Char → Bool → Nat → Nat → Nat → Option (Nat × Int × Bool × List Char)
  | [], decimalSeen, digits, digitsPre, mantissa =>
    if 20 ≤ digits then none
    else
      have _ : Bool := decimalSeen
      some (mantissa, (digitsPre : Int) - (digits : Int), false, [])
  | c :: rest, decimalSeen, digits, digitsPre, mantissa =>
    if 20 ≤ digits then none
    else if c = '_' then pmLoop rest decimalSeen digits digitsPre mantissa
    else if c = '.' then
      if decimalSeen then none else pmLoop rest true digits digitsPre mantissa
    else if c = 'e' ∨ c = 'E' then
      some (mantissa, (digitsPre : Int) - (digits : Int), true, rest)
    else if isDig c then
      pmLoop rest decimalSeen (digits + 1)
        (if decimalSeen then digitsPre else digitsPre + 1)
        ((mantissa * 10 % (2 ^ 64) + (c.toNat - 48)) % (2 ^ 64))
    else none

/-- Embeds `parse_mantissa_base10`: mantissa digits accumulated by wrapping
multiply-by-ten-and-add, at most 19 digits accepted, `e`/`E` stops the loop
and reports an explicit exponent. -/
def parse_mantissa_base10 (l : List Char) : Option (Nat × Int × Bool × List Char) :=
  pmLoop l false 0 0 0

/-- The digit-accumulation loop of `parse_exp10`, using the checked `i64`
arithmetic of the source (`checked_mul`/`checked_add`). -/
def pe10Loop : List Char → Int → Option Int
  | [], acc => some acc
  | c :: rest, acc =>
    if c = '_' then pe10Loop rest acc
    else
      let m : Int := acc * 10
      if m < -(2 ^ 63) ∨ 2 ^ 63 - 1 < m then none
      else
        match toDigit10 c with
        | Option.none => none
        | Option.some d =>
          let s : Int := m + d
          if s < -(2 ^ 63) ∨ 2 ^ 63 - 1 < s then none
          else pe10Loop rest s

/-- Embeds `parse_exp10`: parses an optional sign and a nonempty underscore-
separated digit run after the exponent marker, rejecting `i64` overflow of
the accumulator, values outside the `i16` range (`try_into`), and the failing
`checked_mul(-1)` negation. -/
def parse_exp10 (l : List Char) : Option Int :=
  match l with
  | [] => none
  | c0 :: rest0 =>
    match
      (if c0 = '+' ∨ c0 = '-' then
        match rest0 with
        | [] => none
        | c1 :: rest1 => some (c0 = '-', c1, rest1)
      else some (false, c0, rest0)) with
    | Option.none => none
    | Option.some (neg, c, rest) =>
      match toDigit10 c with
      | Option.none => none
      | Option.some d =>
        match pe10Loop rest (d : Int) with
        | Option.none => none
        | Option.some e =>
          if e < -32768 ∨ 32767 < e then none
          else if neg then (if e = -32768 then none else some (-e))
          else some e

/-- Embeds `parse_man_exp10`: sign, then mantissa, then (when an exponent
marker was seen) the explicit exponent; the final `e10` is the unchecked
(wrapping) `i16` sum of implicit and explicit exponents. -/
def parse_man_exp10 (input : List Char) : Option ManExp10 :=
  match parse_leading_sign input with
  | Option.none => none
  | Option.some (neg, it1) =>
    match parse_mantissa_base10 it1 with
    | Option.none => none
    | Option.some (man, manExp10, hasExp, it2) =>
      match (if hasExp then parse_exp10 it2 else some 0) with
      | Option.none => none
      | Option.some explicitExp10 => some ⟨neg, man, wrapI16 (manExp10 + explicitExp10)⟩

/-! ## Fast-path engine and orchestrator (`elparse.rs`) -/

/-- Outcome of `parse_float_internal`: a float value (as IEEE-754 bits),
abstention (`None`, triggering the fallback), or a panic (the reachable
`unimplemented!()` in the engine body). -/
inductive IOut where
  | val (bits : Nat)
  | abstain
  | panic
deriving DecidableEq

/-- `u64::leading_zeros` for a value `man < 2^64`. -/
def leadingZeros64 (man : Nat) : Nat := 64 - bitsOf man

/-- Embeds `narrowbiased_e2 - i16::try_from(man).ok()?` from
`parse_float_internal` line 43: the conversion fails (abstain) when the
mantissa exceeds `i16::MAX`, otherwise the `i16` subtraction is performed
(wrapping in release). -/
def adje2_code (narrowbiased_e2 : Int) (man : Nat) : Option Int :=
  if 32767 < man then none else some (wrapI16 (narrowbiased_e2 - (man : Int)))

/-- The numeric part of `parse_float_internal` (lines 33-45), operating on
the lexed `ManExp10`: zero-mantissa shortcut to `0.0`, table lookups,
mantissa normalization, exponent adjustment, then `unimplemented!()`. -/
def el_engine (m : ManExp10) : IOut :=
  if m.man = 0 then IOut.val 0
  else
    match get_m64 m.e10 with
    | Option.none => IOut.abstain
    | Option.some _m64 =>
      match get_narrowbiased_e2 m.e10 with
      | Option.none => IOut.abstain
      | Option.some nbe2 =>
        let norMan : Nat := (m.man <<< leadingZeros64 m.man) % (2 ^ 64)
        match adje2_code nbe2 m.man with
        | Option.none => IOut.abstain
        | Option.some adje2 =>
          have _ : Nat := norMan
          have _ : Int := adje2
          IOut.panic

/-- Embeds `parse_float_internal`: lex into `ManExp10` (abstaining on lex
failure), then run the numeric engine. -/
def parse_float_internal (input : List Char) : IOut :=
  match parse_man_exp10 input with
  | Option.none => IOut.abstain
  | Option.some m => el_engine m

/-- Result of `parse_float`: success with the IEEE-754 bits, a parse error
from the fallback, or a panic propagated out of the fast path. -/
inductive PRes where
  | ok (bits : Nat)
  | err
  | panic
deriving DecidableEq

/-- Embeds `parse_float_with_fallback`.  The external fallback (`x.parse()`)
is abstracted as a function from the input text to `Option` of result bits
(`none` standing for its parse error). -/
def parse_float_with_fallback (fallback : List Char → Option Nat) (x : List Char) : PRes :=
  match parse_float_internal x with
  | IOut.val f => PRes.ok f
  | IOut.abstain =>
    match fallback x with
    | Option.some v => PRes.ok v
    | Option.none => PRes.err
  | IOut.panic => PRes.panic

/-- Embeds the public entry point `parse_float`. -/
def parse_float (fallback : List Char → Option Nat) (x : List Char) : PRes :=
  parse_float_with_fallback fallback x

/-- The characters the mantissa loop consumes without failing or stopping:
digits, the decimal point and the underscore separator.  Used to phrase
"the mantissa run of the input". -/
def isManChar (c : Char) : Bool := isDig c || c = '.' || c = '_'

/-- The input after the optional leading sign, i.e. the part
`parse_mantissa_base10` runs on. -/
def dropSign : List Char → List Char
  | [] => []
  | c :: rest => if c = '+' ∨ c = '-' then rest else c :: rest

/-- IEEE-754 bit pattern of `+0.0`, the value of the Rust literal `0.0`
returned by the zero-mantissa shortcut. -/
def f64PosZeroBits : Nat := 0

/-- IEEE-754 bit pattern of `-0.0` (sign bit set, all other bits clear). -/
def f64NegZeroBits : Nat := 2 ^ 63

end EL

/-! ## Helper lemmas -/

namespace EL

theorem bitsSearch_spec : ∀ (fuel lo hi n : Nat), hi - lo < 2 ^ fuel → n < 2 ^ hi →
    (lo = 0 ∨ 2 ^ (lo - 1) ≤ n) →
    n < 2 ^ bitsSearch fuel lo hi n ∧
      (bitsSearch fuel lo hi n = 0 ∨ 2 ^ (bitsSearch fuel lo hi n - 1) ≤ n) := by
  intro fuel
  induction fuel with
  | zero =>
    intro lo hi n hf hn hlo
    have hle : hi ≤ lo := by omega
    simp only [bitsSearch]
    exact ⟨lt_of_lt_of_le hn (Nat.pow_le_pow_right (by norm_num) hle), hlo⟩
  | succ fuel ih =>
    intro lo hi n hf hn hlo
    simp only [bitsSearch]
    by_cases hle : hi ≤ lo
    · rw [if_pos hle]
      exact ⟨lt_of_lt_of_le hn (Nat.pow_le_pow_right (by norm_num) hle), hlo⟩
    · rw [if_neg hle]
      rw [show (2:Nat) ^ (fuel + 1) = 2 * 2 ^ fuel from by ring] at hf
      by_cases hmid : n < 2 ^ ((lo + hi) / 2)
      · rw [if_pos hmid]
        exact ih lo ((lo + hi) / 2) n (by omega) hmid hlo
      · rw [if_neg hmid]
        refine ih ((lo + hi) / 2 + 1) hi n (by omega) hn (Or.inr ?_)
        simpa using Nat.le_of_not_lt hmid

theorem bitsOf_spec (n : Nat) (hn : n < 2 ^ 4224) :
    n < 2 ^ bitsOf n ∧ (bitsOf n = 0 ∨ 2 ^ (bitsOf n - 1) ≤ n) :=
  bitsSearch_spec 16 0 4224 n (by norm_num) hn (Or.inl rfl)

theorem bitsOf_le_iff (n k : Nat) (hn : n < 2 ^ 4224) : bitsOf n ≤ k ↔ n < 2 ^ k := by
  obtain ⟨h1, h2⟩ := bitsOf_spec n hn
  constructor
  · intro h; exact lt_of_lt_of_le h1 (Nat.pow_le_pow_right (by norm_num) h)
  · intro h
    by_contra hk
    rcases h2 with h0 | h2
    · omega
    · have hlt : 2 ^ (bitsOf n - 1) < 2 ^ k := lt_of_le_of_lt h2 h
      have := (Nat.pow_lt_pow_iff_right (by norm_num : 1 < 2)).mp hlt
      omega

theorem bitsOf_unique (n k : Nat) (hn : n < 2 ^ 4224) (h1 : n < 2 ^ k)
    (h2 : k = 0 ∨ 2 ^ (k - 1) ≤ n) : bitsOf n = k := by
  obtain ⟨b1, b2⟩ := bitsOf_spec n hn
  rcases Nat.lt_trichotomy (bitsOf n) k with h | h | h
  · rcases h2 with rfl | h2
    · omega
    · have hlt : 2 ^ (k - 1) < 2 ^ bitsOf n := lt_of_le_of_lt h2 b1
      have := (Nat.pow_lt_pow_iff_right (by norm_num : 1 < 2)).mp hlt
      omega
  · exact h
  · rcases b2 with h0 | b2
    · omega
    · have hlt : 2 ^ (bitsOf n - 1) < 2 ^ k := lt_of_le_of_lt b2 h1
      have := (Nat.pow_lt_pow_iff_right (by norm_num : 1 < 2)).mp hlt
      omega

theorem bitsOf_shiftRight_one (z : Nat) (h2 : 2 ≤ z) (hz : z < 2 ^ 4224) :
    bitsOf (z >>> 1) = bitsOf z - 1 := by
  obtain ⟨b1, b2⟩ := bitsOf_spec z hz
  have hb2 : 2 ≤ bitsOf z := by
    by_contra h
    have : z < 2 ^ 1 := lt_of_lt_of_le b1 (Nat.pow_le_pow_right (by norm_num) (by omega))
    omega
  rcases b2 with h0 | b2
  · omega
  rw [Nat.shiftRight_one]
  have hpow1 : (2:Nat) ^ (bitsOf z - 1) * 2 = 2 ^ bitsOf z := by
    rw [← Nat.pow_succ]; congr 1; omega
  have hpow2 : (2:Nat) ^ (bitsOf z - 1 - 1) * 2 = 2 ^ (bitsOf z - 1) := by
    rw [← Nat.pow_succ]; congr 1; omega
  refine bitsOf_unique (z / 2) (bitsOf z - 1) (by omega) ?_ (Or.inr ?_)
  · have : z < 2 ^ (bitsOf z - 1) * 2 := by omega
    omega
  · rw [Nat.le_div_iff_mul_le (by norm_num : 0 < 2)]
    omega

theorem normLoop_eq : ∀ (fuel : Nat) (z : Nat) (e2 : Int), z < 2 ^ 4224 →
    bitsOf z ≤ 128 + fuel →
    normLoop (1 <<< 128) fuel z e2 =
      some (z >>> (bitsOf z - 128), e2 + ((bitsOf z - 128 : Nat) : Int)) := by
  intro fuel
  induction fuel with
  | zero =>
    intro z e2 hz hb
    have hlt : z < 2 ^ 128 := (bitsOf_le_iff z 128 hz).mp (by omega)
    have hcond : ¬ (1 <<< 128 ≤ z) := by rw [Nat.one_shiftLeft]; omega
    have hs : bitsOf z - 128 = 0 := by
      have := (bitsOf_le_iff z 128 hz).mpr hlt
      omega
    simp only [normLoop, if_neg hcond, hs, Nat.shiftRight_zero, Nat.cast_zero, add_zero]
  | succ fuel ih =>
    intro z e2 hz hb
    by_cases hc : 1 <<< 128 ≤ z
    · have hc2 : 2 ^ 128 ≤ z := by rwa [Nat.one_shiftLeft] at hc
      have hb129 : 129 ≤ bitsOf z := by
        by_contra h
        have : z < 2 ^ 128 := (bitsOf_le_iff z 128 hz).mp (by omega)
        omega
      have h2z : 2 ≤ z := le_trans (by norm_num) hc2
      have hbs := bitsOf_shiftRight_one z h2z hz
      have hzz : z >>> 1 < 2 ^ 4224 := by rw [Nat.shiftRight_one]; omega
      simp only [normLoop, if_pos hc]
      rw [ih (z >>> 1) (e2 + 1) hzz (by rw [hbs]; omega)]
      rw [hbs]
      congr 1
      rw [Prod.mk.injEq]
      constructor
      · rw [← Nat.shiftRight_add]
        congr 1
        omega
      · omega
    · have hlt : z < 2 ^ 128 := by rw [Nat.one_shiftLeft] at hc; omega
      have hs : bitsOf z - 128 = 0 := by
        have := (bitsOf_le_iff z 128 hz).mpr hlt
        omega
      simp only [normLoop, if_neg hc, hs, Nat.shiftRight_zero, Nat.cast_zero, add_zero]

theorem gen_lut_entry_eq_closed (e10 : Int) : gen_lut_entry e10 = gen_lut_entry_closed e10 := by
  by_cases hr : e10 < -310 ∨ 310 < e10
  · simp only [gen_lut_entry, gen_lut_entry_closed, if_pos hr]
  · have hz1 : (if 0 ≤ e10 then (1 <<< N) * 10 ^ e10.toNat else (1 <<< N) / 10 ^ (-e10).toNat)
        < 2 ^ 4224 := by
      have hN : (1 : Nat) <<< N = 2 ^ 2048 := by rw [Nat.one_shiftLeft]; rfl
      by_cases hpos : 0 ≤ e10
      · rw [if_pos hpos, hN]
        have ht : e10.toNat ≤ 310 := by omega
        have h10 : (10:Nat) ^ e10.toNat ≤ 10 ^ 310 := Nat.pow_le_pow_right (by norm_num) ht
        have h16 : (10:Nat) ^ 310 < 2 ^ 1240 := by
          calc (10:Nat) ^ 310 < (2 ^ 4) ^ 310 :=
                Nat.pow_lt_pow_left (by norm_num) (by norm_num)
            _ = 2 ^ 1240 := by rw [← Nat.pow_mul]
        calc 2 ^ 2048 * 10 ^ e10.toNat ≤ 2 ^ 2048 * 10 ^ 310 :=
              Nat.mul_le_mul_left _ h10
          _ < 2 ^ 2048 * 2 ^ 1240 := mul_lt_mul_of_pos_left h16 (pow_pos (by norm_num) 2048)
          _ = 2 ^ 3288 := by rw [← Nat.pow_add]
          _ < 2 ^ 4224 := Nat.pow_lt_pow_right (by norm_num) (by norm_num)
      · rw [if_neg hpos, hN]
        calc 2 ^ 2048 / 10 ^ (-e10).toNat ≤ 2 ^ 2048 := Nat.div_le_self _ _
          _ < 2 ^ 4224 := Nat.pow_lt_pow_right (by norm_num) (by norm_num)
    simp only [gen_lut_entry, gen_lut_entry_closed, if_neg hr]
    rw [if_neg (by rintro ⟨-, h⟩; exact pow_ne_zero _ (by norm_num) h)]
    rw [normLoop_eq 4096 _ _ hz1 ((bitsOf_le_iff _ 4224 hz1).mpr hz1)]

/-- Evaluation of the generator, in closed form, over the full shipped range
`[-307, 288]`: every entry is produced (no assertion fires), equals the
specification-side truncation of `floor(2^2048 * 10^e10)` to its top 128
bits, stores the wrapping-arithmetic exponent estimate, and has the top bit
of its high half set. -/
theorem gen_entries_ok : ∀ n : Nat, n < 596 →
    gen_lut_entry_closed ((n : Int) - 307) =
      some ⟨truncTop128 (z10 ((n : Int) - 307)) >>> 64,
            truncTop128 (z10 ((n : Int) - 307)) % 2 ^ 64,
            (approx_n ((n : Int) - 307) : Int)⟩ ∧
    2 ^ 63 ≤ truncTop128 (z10 ((n : Int) - 307)) >>> 64 := by decide

theorem get_m64_closed (e10 : Int) : get_m64 e10 =
    (if lut_e10_min ≤ e10 ∧ e10 ≤ lut_e10_max then
      (gen_lut_entry_closed e10).map (fun e => e.m128_hi)
    else none) := by
  simp only [get_m64, gen_lut_entry_eq_closed]

theorem get_narrowbiased_e2_closed (e10 : Int) : get_narrowbiased_e2 e10 =
    (if lut_e10_min ≤ e10 ∧ e10 ≤ lut_e10_max then
      (gen_lut_entry_closed e10).map (fun e => e.widebiased_e2)
    else none) := by
  simp only [get_narrowbiased_e2, gen_lut_entry_eq_closed]

theorem get_narrowbiased_e2_zero : get_narrowbiased_e2 0 = some 1087 := by
  rw [get_narrowbiased_e2_closed]; decide

theorem el_engine_panic_of (m : ManExp10) (w : Nat) (b : Int)
    (hm : ¬ m.man = 0) (hw : get_m64 m.e10 = some w)
    (hb : get_narrowbiased_e2 m.e10 = some b) (ha : m.man ≤ 32767) :
    el_engine m = IOut.panic := by
  simp only [el_engine, if_neg hm, hw, hb, adje2_code, if_neg (by omega : ¬ 32767 < m.man)]

theorem el_engine_one_panics : el_engine ⟨false, 1, 0⟩ = IOut.panic := by
  refine el_engine_panic_of ⟨false, 1, 0⟩ (2 ^ 63) 1087 (by decide) ?_ ?_ (by decide)
  · rw [get_m64_closed]; decide
  · rw [get_narrowbiased_e2_closed]; decide

theorem parse_float_internal_one : parse_float_internal ['1'] = IOut.panic := by
  have h1 : parse_man_exp10 ['1'] = some ⟨false, 1, 0⟩ := by decide
  simp only [parse_float_internal, h1]
  exact el_engine_one_panics

end EL

/-! ## Claim theorems -/

namespace EL

/-- Claim C1: the specification states that `parse_float` always terminates
normally with a value or a parse error and never panics.  REFUTED by the
code: on the input `1` (non-zero mantissa, exponent `0` inside the table
range) the engine body reaches `unimplemented!()`, which panics in every
build profile, so `parse_float` panics instead of returning. -/
theorem c1_parse_float_panics_on_one :
    ∀ fb : List Char → Option Nat, parse_float fb ['1'] = PRes.panic := by
  intro fb
  unfold parse_float parse_float_with_fallback
  rw [parse_float_internal_one]

/-- Claim C2: the specification states that for a non-zero mantissa the
fast-path engine returns `Some` only with the correctly rounded value and
otherwise abstains with `None`.  REFUTED by the code: on the `ManExp10`
with `man = 1`, `e10 = 0` the engine neither produces a value nor abstains;
it hits `unimplemented!()` and panics. -/
theorem c2_engine_panics_not_abstains : el_engine ⟨false, 1, 0⟩ = IOut.panic :=
  el_engine_one_panics

/-- Claim C3: the specification states that parsing the shortest round-trip
decimal string of every double is bit-exact, in particular
`parse_float("-0.0")` returns negative zero.  REFUTED by the code: the
zero-mantissa shortcut returns the literal `0.0`, so `parse_float("-0.0")`
returns the bit pattern of positive zero, not negative zero. -/
theorem c3_neg_zero_sign_lost :
    (∀ fb : List Char → Option Nat,
      parse_float fb ['-', '0', '.', '0'] = PRes.ok f64PosZeroBits) ∧
    f64PosZeroBits ≠ f64NegZeroBits := by
  constructor
  · intro fb
    unfold parse_float parse_float_with_fallback
    have h : parse_float_internal ['-', '0', '.', '0'] = IOut.val 0 := by decide
    rw [h]
    rfl
  · decide

/-- Claim C4: for every `e10` in `[-307, 288]` the generated table entry
stores the exact floor of `2^2048 * 10^e10` truncated to its top 128
significant bits, with the top bit of the high 64-bit half set, and its
stored biased exponent equals the wrapping-arithmetic fixed-point estimate
`((217706 * e10) >> 16) + 1087` exactly.  CONFIRMED. -/
theorem c4_table_entries_exact : ∀ n : Nat, n < 596 →
    gen_lut_entry ((n : Int) - 307) =
      some ⟨truncTop128 (z10 ((n : Int) - 307)) >>> 64,
            truncTop128 (z10 ((n : Int) - 307)) % 2 ^ 64,
            (approx_n ((n : Int) - 307) : Int)⟩ ∧
    2 ^ 63 ≤ truncTop128 (z10 ((n : Int) - 307)) >>> 64 := by
  intro n h
  rw [gen_lut_entry_eq_closed]
  exact gen_entries_ok n h

theorem c4_witness : 2 ^ 63 ≤ truncTop128 (z10 (((307 : Nat) : Int) - 307)) >>> 64 :=
  (c4_table_entries_exact 307 (by decide)).2

/-- Claim C5: whenever the lexer fails or the fast-path engine abstains
(`parse_float_internal` returns `None`), `parse_float` invokes the fallback
on the original unmodified input and propagates its success or error result
unchanged.  CONFIRMED. -/
theorem c5_fallback_gets_original_input :
    ∀ (fb : List Char → Option Nat) (x : List Char),
      parse_float_internal x = IOut.abstain →
      parse_float fb x =
        (match fb x with | Option.some v => PRes.ok v | Option.none => PRes.err) := by
  intro fb x h
  unfold parse_float parse_float_with_fallback
  rw [h]

theorem c5_witness : parse_float (fun _ => some 7) ['a', 'b', 'c'] = PRes.ok 7 :=
  c5_fallback_gets_original_input (fun _ => some 7) ['a', 'b', 'c'] (by decide)

/-- Claim C7: the specification states that every input not matching the
grammar, in particular any input whose mantissa contains no digit at all
such as `.`, is rejected by the lexer (`None`) and routed to the fallback.
REFUTED by the code: on the input `.` the lexer accepts and returns the
`ManExp10` with `man = 0`, and `parse_float` returns `Ok(0.0)` without ever
consulting the fallback. -/
theorem c7_digitless_mantissa_accepted :
    parse_man_exp10 ['.'] = some ⟨false, 0, 0⟩ ∧
    ∀ fb : List Char → Option Nat, parse_float fb ['.'] = PRes.ok 0 := by
  constructor
  · decide
  · intro fb
    unfold parse_float parse_float_with_fallback
    have h : parse_float_internal ['.'] = IOut.val 0 := by decide
    rw [h]

/-- Claim C8: the specification states that the tentative binary exponent is
`biased_e2 - s` where `s` is the mantissa normalization shift count.
REFUTED by the code: line 43 computes `narrowbiased_e2 - i16::try_from(man)`,
subtracting the mantissa value itself.  For `man = 2`, `e10 = 0` the table
gives `biased_e2 = 1087`; the code computes `1087 - 2 = 1085` while the
specified value is `1087 - leading_zeros(2) = 1087 - 62 = 1025`. -/
theorem c8_adjusted_exponent_subtracts_mantissa :
    get_narrowbiased_e2 0 = some 1087 ∧
    adje2_code 1087 2 = some 1085 ∧
    (1087 : Int) - (leadingZeros64 2 : Int) = 1025 ∧
    (1085 : Int) ≠ 1025 :=
  ⟨get_narrowbiased_e2_zero, by decide, by decide, by decide⟩

/-- Claim C10: for every `e10` in `[-307, 288]` the generator terminates and
no assertion in `gen_lut_entry` fires (the normalization loop ends within
its fuel, the result has exactly 128 bits, the divisor is non-zero, the
biased exponent is non-negative and equals the wrapping self-check), and the
`two128` sanity assertion of `gen_lookup_table` holds.  CONFIRMED. -/
theorem c10_generator_never_aborts :
    bitsOf (1 <<< 128) = 129 ∧
    ∀ n : Nat, n < 596 → (gen_lut_entry ((n : Int) - 307)).isSome = true := by
  constructor
  · decide
  · intro n h
    rw [gen_lut_entry_eq_closed, (gen_entries_ok n h).1]
    rfl

theorem c10_witness : (gen_lut_entry (((307 : Nat) : Int) - 307)).isSome = true :=
  c10_generator_never_aborts.2 307 (by decide)

/-- Claim C9: the unit equalities for `parse_exp10` hold
(`-2639`, `0_00___0`, `0+0_0`, `999999` and the empty input), and no value
outside the signed 16-bit range is ever returned.  CONFIRMED. -/
theorem c9_parse_exp10_cases_and_range :
    parse_exp10 ['-', '2', '6', '3', '9'] = some (-2639) ∧
    parse_exp10 ['0', '_', '0', '0', '_', '_', '_', '0'] = some 0 ∧
    parse_exp10 ['0', '+', '0', '_', '0'] = none ∧
    parse_exp10 ['9', '9', '9', '9', '9', '9'] = none ∧
    parse_exp10 [] = none ∧
    ∀ (l : List Char) (v : Int), parse_exp10 l = some v → -32768 ≤ v ∧ v ≤ 32767 := by
  refine ⟨by decide, by decide, by decide, by decide, by decide, ?_⟩
  intro l v h
  match l with
  | [] => exact Option.noConfusion h
  | c0 :: rest0 =>
    simp only [parse_exp10] at h
    split at h
    · exact Option.noConfusion h
    · split at h
      · exact Option.noConfusion h
      · split at h
        · exact Option.noConfusion h
        · split at h
          · exact Option.noConfusion h
          · split at h
            · split at h
              · exact Option.noConfusion h
              · injection h with h
                omega
            · injection h with h
              omega

theorem c9_witness : -32768 ≤ (3 : Int) ∧ (3 : Int) ≤ 32767 :=
  c9_parse_exp10_cases_and_range.2.2.2.2.2 ['3'] 3 (by decide)

theorem pmLoop_man_lt : ∀ (l : List Char) (ds : Bool) (digits dpre man : Nat)
    (r : Nat × Int × Bool × List Char), man < 10 ^ digits →
    pmLoop l ds digits dpre man = some r → r.1 < 10 ^ 19 := by
  intro l
  induction l with
  | nil =>
    intro ds digits dpre man r hinv h
    simp only [pmLoop] at h
    split at h
    · exact Option.noConfusion h
    · next hd =>
      injection h with h
      subst h
      exact lt_of_lt_of_le hinv (Nat.pow_le_pow_right (by norm_num) (by omega))
  | cons c rest ih =>
    intro ds digits dpre man r hinv h
    simp only [pmLoop] at h
    split at h
    · exact Option.noConfusion h
    next hd =>
    split at h
    · exact ih _ _ _ _ r hinv h
    next hus =>
    split at h
    · split at h
      · exact Option.noConfusion h
      · exact ih _ _ _ _ r hinv h
    next hdot =>
    split at h
    · injection h with h
      subst h
      exact lt_of_lt_of_le hinv (Nat.pow_le_pow_right (by norm_num) (by omega))
    next he =>
    split at h
    · next hdig =>
      refine ih _ _ _ _ r ?_ h
      have hc : 48 ≤ c.toNat ∧ c.toNat ≤ 57 := by
        simpa [isDig, Bool.and_eq_true, decide_eq_true_eq] using hdig
      have hps : (10:Nat) ^ (digits + 1) = 10 ^ digits * 10 := pow_succ 10 digits
      by_cases h18 : digits ≤ 18
      · have hman18 : man < 10 ^ 18 :=
          lt_of_lt_of_le hinv (Nat.pow_le_pow_right (by norm_num) h18)
        have h1819 : (10:Nat) ^ 18 * 10 = 10 ^ 19 := by norm_num
        have h64a : (10:Nat) ^ 19 < 2 ^ 64 := by norm_num
        have hA : man * 10 < 2 ^ 64 := by omega
        rw [Nat.mod_eq_of_lt hA, Nat.mod_eq_of_lt (by omega)]
        omega
      · have hd19 : digits = 19 := by omega
        have h1920 : (2:Nat) ^ 64 < 10 ^ (digits + 1) := by
          subst hd19; norm_num
        exact lt_trans (Nat.mod_lt _ (by norm_num)) h1920
    · exact Option.noConfusion h

theorem pmLoop_digit_overflow : ∀ (l : List Char) (ds : Bool) (digits dpre man : Nat),
    20 ≤ digits + (l.takeWhile isManChar).countP isDig →
    pmLoop l ds digits dpre man = none := by
  intro l
  induction l with
  | nil =>
    intro ds digits dpre man hcount
    simp only [List.takeWhile_nil, List.countP_nil] at hcount
    simp only [pmLoop, if_pos (show 20 ≤ digits by omega)]
  | cons c rest ih =>
    intro ds digits dpre man hcount
    by_cases hd : 20 ≤ digits
    · simp only [pmLoop, if_pos hd]
    · simp only [pmLoop, if_neg hd]
      by_cases hus : c = '_'
      · rw [if_pos hus]
        refine ih _ _ _ _ ?_
        subst hus
        rw [List.takeWhile_cons, if_pos (show isManChar '_' = true by decide),
          List.countP_cons, if_neg (show ¬ (isDig '_' = true) by decide)] at hcount
        omega
      · rw [if_neg hus]
        by_cases hdot : c = '.'
        · rw [if_pos hdot]
          by_cases hds : ds = true
          · rw [if_pos hds]
          · rw [if_neg hds]
            refine ih _ _ _ _ ?_
            subst hdot
            rw [List.takeWhile_cons, if_pos (show isManChar '.' = true by decide),
              List.countP_cons, if_neg (show ¬ (isDig '.' = true) by decide)] at hcount
            omega
        · rw [if_neg hdot]
          by_cases he : c = 'e' ∨ c = 'E'
          · exfalso
            have hman : isManChar c = false := by
              rcases he with he | he <;> subst he <;> decide
            rw [List.takeWhile_cons, if_neg (by simp [hman])] at hcount
            simp only [List.countP_nil] at hcount
            omega
          · rw [if_neg he]
            by_cases hdig : isDig c = true
            · rw [if_pos hdig]
              refine ih _ _ _ _ ?_
              rw [List.takeWhile_cons, if_pos (by simp [isManChar, hdig])] at hcount
              rw [List.countP_cons, if_pos hdig] at hcount
              omega
            · rw [if_neg hdig]

/-- Claim C6: every input accepted by the lexer yields a `ManExp10` whose
mantissa is below `10^19` (at most 19 decimal digits), and every input whose
mantissa run (the digit, point and underscore prefix after the optional
sign) contains 20 or more digits is rejected with `None`.  CONFIRMED. -/
theorem c6_mantissa_digit_bound :
    (∀ (l : List Char) (m : ManExp10), parse_man_exp10 l = some m → m.man < 10 ^ 19) ∧
    (∀ l : List Char,
      20 ≤ ((dropSign l).takeWhile isManChar).countP isDig → parse_man_exp10 l = none) := by
  constructor
  · intro l m h
    simp only [parse_man_exp10] at h
    split at h
    · exact Option.noConfusion h
    next neg it1 heq =>
    split at h
    · exact Option.noConfusion h
    next man mexp hexp it2 heq2 =>
    split at h
    · exact Option.noConfusion h
    next expl heq3 =>
    injection h with h
    subst h
    exact pmLoop_man_lt it1 false 0 0 0 (man, mexp, hexp, it2) (by norm_num) heq2
  · intro l hcount
    match l with
    | [] => rfl
    | c :: rest =>
      simp only [parse_man_exp10, parse_leading_sign]
      by_cases hs : c = '+' ∨ c = '-'
      · rw [if_pos hs]
        simp only [dropSign, if_pos hs] at hcount
        have hm : parse_mantissa_base10 rest = none :=
          pmLoop_digit_overflow rest false 0 0 0 (by omega)
        simp only [hm]
      · rw [if_neg hs]
        simp only [dropSign, if_neg hs] at hcount
        have hm : parse_mantissa_base10 (c :: rest) = none :=
          pmLoop_digit_overflow (c :: rest) false 0 0 0 (by omega)
        simp only [hm]

theorem c6_witness :
    (5 : Nat) < 10 ^ 19 ∧ parse_man_exp10 (List.replicate 20 '1') = none :=
  ⟨c6_mantissa_digit_bound.1 ['5'] ⟨false, 5, 0⟩ (by decide),
   c6_mantissa_digit_bound.2 (List.replicate 20 '1') (by decide)⟩

end EL
